import Mathlib

/-!
# Verification of the FEN parser (`src/fen-parser.js`)

A shallow embedding of `parseFen` and its nested helper `parsePiecePlacement`
into Lean 4.  JavaScript strings are modelled as `List Char` (the `for...of`
loop in the source iterates code points, which `Char` matches), `null` results
are modelled by `Option`, and the `NaN` produced by `parseInt` on non-numeric
text is modelled by `none : Option Int`.
-/

/-- The JavaScript `\s` character class (also the set removed by
`String.prototype.trim`): ASCII whitespace, NBSP, the Unicode space
separators, the line separators and the BOM. -/
def isWs (c : Char) : Bool :=
  c = ' ' || c = '\t' || c = '\n' || c = '\x0b' || c = '\x0c' || c = '\r' ||
  c = '\u00A0' || c = '\u1680' || ('\u2000' ≤ c && c ≤ '\u200A') ||
  c = '\u2028' || c = '\u2029' || c = '\u202F' || c = '\u205F' ||
  c = '\u3000' || c = '\uFEFF'

/-- Model of `s.trim()` from line 16 of the source: remove whitespace from both ends. -/
def jsTrim (s : List Char) : List Char :=
  ((s.dropWhile isWs).reverse.dropWhile isWs).reverse

/-- Worker for splitting on runs of whitespace: `cur` holds the (reversed)
current word.  Maximal non-whitespace runs are emitted in order. -/
def splitRunsAux : List Char → List Char → List (List Char)
  | [], cur => if cur = [] then [] else [cur.reverse]
  | c :: rest, cur =>
    if isWs c then
      if cur = [] then splitRunsAux rest []
      else cur.reverse :: splitRunsAux rest []
    else splitRunsAux rest (c :: cur)

/-- Model of `fenString.trim().split(/\s+/)` from line 16 of the source.  On a trimmed
string the JavaScript regex split yields the maximal non-whitespace runs,
except that the empty string yields `[""]` (one empty field). -/
def trimAndSplit (s : List Char) : List (List Char) :=
  let t := jsTrim s
  if t = [] then [[]] else splitRunsAux t []

/-- The regex `/[1-8]/` from line 44 of the source, applied to one character. -/
def isFenDigit (c : Char) : Bool :=
  '1' ≤ c && c ≤ '8'

/-- Value of `parseInt(char, 10)` for a single digit character (line 45). -/
def fenDigitVal (c : Char) : Nat :=
  c.toNat - '0'.toNat

/-- The regex `/[pnbrqkPNBRQK]/` from line 52 of the source, applied to one
character: the twelve legal piece letters. -/
def isFenPiece (c : Char) : Bool :=
  c = 'p' || c = 'n' || c = 'b' || c = 'r' || c = 'q' || c = 'k' ||
  c = 'P' || c = 'N' || c = 'B' || c = 'R' || c = 'Q' || c = 'K'

/-- One board square: `null` (empty) or the piece letter stored by the code. -/
abbrev Cell := Option Char

/-- The `for (const char of rank)` loop of `parsePiecePlacement`
(lines 43–58): `acc` is `rankArray`, `fc` is `fileCount`.  A digit `1`–`8`
pushes that many `null` cells and adds its value to `fileCount`; a piece
letter pushes one cell and increments `fileCount`; any other character
returns `null` for the whole rank. -/
def scanRankLoop : List Char → List Cell → Nat → Option (List Cell × Nat)
  | [], acc, fc => some (acc, fc)
  | c :: rest, acc, fc =>
    if isFenDigit c then
      scanRankLoop rest (acc ++ List.replicate (fenDigitVal c) none) (fc + fenDigitVal c)
    else if isFenPiece c then
      scanRankLoop rest (acc ++ [some c]) (fc + 1)
    else
      none

/-- One iteration of the outer `for (const rank of ranks)` loop
(lines 40–62): scan the rank, then `if (fileCount !== 8) return null`. -/
def parseRank (r : List Char) : Option (List Cell) :=
  match scanRankLoop r [] 0 with
  | none => none
  | some (rankArray, fileCount) =>
    if fileCount = 8 then some rankArray else none

/-- The outer `for (const rank of ranks)` loop of `parsePiecePlacement`
(lines 39–63): `board` accumulates the parsed ranks in order; the first
failing rank aborts the whole function with `null`. -/
def ranksLoopAux : List (List Char) → List (List Cell) → Option (List (List Cell))
  | [], board => some board
  | r :: rest, board =>
    match parseRank r with
    | none => none
    | some rankArray => ranksLoopAux rest (board ++ [rankArray])

/-- Model of `parsePiecePlacement` (lines 34–64): split the field on `/`, require
exactly 8 ranks, then parse each rank in order. -/
def parsePiecePlacement (pp : List Char) : Option (List (List Cell)) :=
  let ranks := pp.splitOn '/'
  if ranks.length ≠ 8 then none
  else ranksLoopAux ranks []

/-- Digit run to value, most significant first (base 10). -/
def digitsToNat (l : List Char) : Nat :=
  l.foldl (fun a c => a * 10 + (c.toNat - '0'.toNat)) 0

/-- The value of the leading digit run, or `none` when there is none
(`parseInt` yields `NaN` in that case). -/
def leadingDigitsVal (l : List Char) : Option Nat :=
  let ds := l.takeWhile Char.isDigit
  if ds.isEmpty then none else some (digitsToNat ds)

/-- Model of `parseInt(s, 10)` (lines 82–83): skip leading whitespace, read an
optional sign and then the longest leading digit run; no digits means `NaN`,
modelled as `none`. -/
def jsParseInt (s : List Char) : Option Int :=
  match s.dropWhile isWs with
  | '-' :: rest => (leadingDigitsVal rest).map (fun n => -(n : Int))
  | '+' :: rest => (leadingDigitsVal rest).map (fun n => (n : Int))
  | t => (leadingDigitsVal t).map (fun n => (n : Int))

/-- The object returned by `parseFen` on success (lines 75–85). -/
structure ParseResult where
  isValid : Bool
  piecePlacement : List Char
  board : List (List Cell)
  activeColor : List Char
  castlingAvailability : List Char
  enPassantTarget : List Char
  halfmoveClock : Option Int
  fullmoveNumber : Option Int
  fen : List Char
deriving Repr, DecidableEq

/-- The body of `parseFen` after the six fields have been destructured
(lines 66–85): parse the piece placement, validate the active color, then
assemble the result object. -/
def parseFenWith (fenString pp ac ca ep hm fm : List Char) : Option ParseResult :=
  match parsePiecePlacement pp with
  | none => none
  | some board =>
    if ac ≠ ['w'] ∧ ac ≠ ['b'] then none
    else some {
      isValid := true
      piecePlacement := pp
      board := board
      activeColor := ac
      castlingAvailability := ca
      enPassantTarget := ep
      halfmoveClock := jsParseInt hm
      fullmoveNumber := jsParseInt fm
      fen := fenString }

/-- Model of `parseFen` (lines 14–86): trim and split the input, require exactly six
fields (matching a six-element list both checks the count of line 18 and
performs the destructuring of lines 20–27), then run the rest of the body.
The `typeof fenString !== 'string'` guard of line 15 is not representable
here: the embedding's inputs are exactly the strings. -/
def parseFen (fenString : List Char) : Option ParseResult :=
  match trimAndSplit fenString with
  | [pp, ac, ca, ep, hm, fm] => parseFenWith fenString pp ac ca ep hm fm
  | _ => none

/-! ## Derived predicates, spec-side measures and concrete positions -/

/-- A well-formed cell: empty (`null`) or one of the twelve piece letters. -/
def CellOk (c : Cell) : Prop :=
  c = none ∨ ∃ p, isFenPiece p = true ∧ c = some p

/-- A well-formed rank: exactly 8 cells, all well-formed. -/
def RankOk (b : List Cell) : Prop :=
  b.length = 8 ∧ ∀ c ∈ b, CellOk c

/-- The empty-board position, used as a concrete instantiation point. -/
def fenEmptyBoard : List Char := "8/8/8/8/8/8/8/8 w - - 0 1".toList

/-- The record `parseFen` returns on `fenEmptyBoard`. -/
def emptyBoardResult : ParseResult :=
  { isValid := true
    piecePlacement := "8/8/8/8/8/8/8/8".toList
    board := List.replicate 8 (List.replicate 8 none)
    activeColor := ['w']
    castlingAvailability := ['-']
    enPassantTarget := ['-']
    halfmoveClock := some 0
    fullmoveNumber := some 1
    fen := fenEmptyBoard }

/-- A position whose third rank is the illegal digit `9`. -/
def fenBadDigit : List Char :=
  "rnbqkbnr/pppppppp/9/8/8/8/PPPPPPPP/RNBQKBNR w KQkq - 0 1".toList

/-- An otherwise-valid position whose halfmove clock field is `"-5"`. -/
def fenNegClock : List Char := "8/8/8/8/8/8/8/8 w - - -5 1".toList

/-- An otherwise-valid position whose clock fields are the non-numeric
strings `"x"` and `"y"`. -/
def fenNaNClock : List Char := "8/8/8/8/8/8/8/8 w - - x y".toList

/-- The spec's re-joining of fields with single spaces. -/
def joinFields : List (List Char) → List Char
  | [] => []
  | [w] => w
  | w :: rest => w ++ ' ' :: joinFields rest

/-- The empty-board position written with redundant internal whitespace. -/
def fenSpaced : List Char := "8/8/8/8/8/8/8/8   w  -  - 0  1".toList

/-- What `parseFen` returns on `fenSpaced`: the same record as on the
normalized text, except for the verbatim source. -/
def fenSpacedResult : ParseResult := { emptyBoardResult with fen := fenSpaced }

/-- The number of board squares one legal character contributes. -/
def fenCharCount (c : Char) : Nat :=
  if isFenDigit c then fenDigitVal c else 1

/-- The total number of squares a rank string expands to. -/
def squareSum (l : List Char) : Nat :=
  (l.map fenCharCount).sum

example : parseFen "8/8/8/8/8/8/8/8 w - - 0 1".toList =
    some {
      isValid := true
      piecePlacement := "8/8/8/8/8/8/8/8".toList
      board := List.replicate 8 (List.replicate 8 none)
      activeColor := ['w']
      castlingAvailability := ['-']
      enPassantTarget := ['-']
      halfmoveClock := some 0
      fullmoveNumber := some 1
      fen := "8/8/8/8/8/8/8/8 w - - 0 1".toList } := by decide

example : parseFen "8/8/8/8/8/8/8/8 w - - 0".toList = none := by decide

example : (parseFen "rnbqkbnr/pppppppp/8/8/8/8/PPPPPPPP/RNBQKBNR w KQkq - 0 1".toList).isSome = true := by decide

example : parseFen "rnbqkbnr/pppppppp/9/8/8/8/PPPPPPPP/RNBQKBNR w KQkq - 0 1".toList = none := by decide

example : parseFen "rnbqkbnr/pppppppp/8/8/8/8/PPPPPPPP/RNBQKBNR x KQkq - 0 1".toList = none := by decide

/-! ## Invariants of the rank scanner -/

theorem scanRankLoop_length (l : List Char) : ∀ acc fc out n,
    scanRankLoop l acc fc = some (out, n) → out.length + fc = acc.length + n := by
  induction l with
  | nil =>
    intro acc fc out n h
    simp only [scanRankLoop, Option.some.injEq, Prod.mk.injEq] at h
    obtain ⟨h1, h2⟩ := h
    subst h1
    subst h2
    rfl
  | cons c rest ih =>
    intro acc fc out n h
    by_cases hd : isFenDigit c = true
    · simp only [scanRankLoop, hd, if_true] at h
      have hlen := ih _ _ _ _ h
      simp only [List.length_append, List.length_replicate] at hlen
      omega
    · by_cases hp : isFenPiece c = true
      · simp only [scanRankLoop, hd, hp, if_false, if_true] at h
        have hlen := ih _ _ _ _ h
        simp only [List.length_append, List.length_singleton] at hlen
        omega
      · simp [scanRankLoop, hd, hp] at h

theorem scanRankLoop_cells (l : List Char) : ∀ acc fc out n,
    scanRankLoop l acc fc = some (out, n) → (∀ c ∈ acc, CellOk c) →
    ∀ c ∈ out, CellOk c := by
  induction l with
  | nil =>
    intro acc fc out n h hacc
    simp only [scanRankLoop, Option.some.injEq, Prod.mk.injEq] at h
    obtain ⟨h1, _⟩ := h
    subst h1
    exact hacc
  | cons c rest ih =>
    intro acc fc out n h hacc
    by_cases hd : isFenDigit c = true
    · simp only [scanRankLoop, hd, if_true] at h
      refine ih _ _ _ _ h ?_
      intro x hx
      rcases List.mem_append.mp hx with hx | hx
      · exact hacc x hx
      · exact Or.inl (List.eq_of_mem_replicate hx)
    · by_cases hp : isFenPiece c = true
      · simp only [scanRankLoop, hd, hp, if_false, if_true] at h
        refine ih _ _ _ _ h ?_
        intro x hx
        rcases List.mem_append.mp hx with hx | hx
        · exact hacc x hx
        · exact Or.inr ⟨c, hp, List.mem_singleton.mp hx⟩
      · simp [scanRankLoop, hd, hp] at h

theorem parseRank_some {r : List Char} {out : List Cell}
    (h : parseRank r = some out) : RankOk out := by
  unfold parseRank at h
  rcases hs : scanRankLoop r [] 0 with _ | ⟨rankArray, fileCount⟩
  · rw [hs] at h; exact absurd h (by simp)
  · rw [hs] at h
    change (if fileCount = 8 then some rankArray else none) = some out at h
    by_cases h8 : fileCount = 8
    · rw [if_pos h8] at h
      have hout : rankArray = out := by simpa using h
      subst hout
      have hlen := scanRankLoop_length r [] 0 rankArray fileCount hs
      refine ⟨by simpa [h8] using hlen, ?_⟩
      exact scanRankLoop_cells r [] 0 rankArray fileCount hs (by simp)
    · rw [if_neg h8] at h
      exact absurd h (by simp)

theorem ranksLoopAux_invariant (l : List (List Char)) : ∀ board out,
    ranksLoopAux l board = some out → (∀ b ∈ board, RankOk b) →
    out.length = board.length + l.length ∧ ∀ b ∈ out, RankOk b := by
  induction l with
  | nil =>
    intro board out h hb
    simp only [ranksLoopAux, Option.some.injEq] at h
    subst h
    exact ⟨by simp, hb⟩
  | cons r rest ih =>
    intro board out h hb
    rcases hr : parseRank r with _ | rankArray
    · simp [ranksLoopAux, hr] at h
    · simp only [ranksLoopAux, hr] at h
      have hall : ∀ b ∈ board ++ [rankArray], RankOk b := by
        intro b hbm
        rcases List.mem_append.mp hbm with hbm | hbm
        · exact hb b hbm
        · rw [List.mem_singleton.mp hbm]
          exact parseRank_some hr
      have := ih _ _ h hall
      refine ⟨?_, this.2⟩
      have hlen := this.1
      simp only [List.length_append, List.length_cons, List.length_nil] at hlen ⊢
      omega

theorem ranksLoopAux_none_of_bad (l : List (List Char)) : ∀ board r, r ∈ l →
    parseRank r = none → ranksLoopAux l board = none := by
  induction l with
  | nil => intro board r h; exact absurd h (List.not_mem_nil r)
  | cons q rest ih =>
    intro board r hmem hr
    rcases List.mem_cons.mp hmem with hq | hq
    · subst hq
      simp [ranksLoopAux, hr]
    · rcases hqr : parseRank q with _ | rankArray
      · simp [ranksLoopAux, hqr]
      · simp only [ranksLoopAux, hqr]
        exact ih _ r hq hr

theorem parsePiecePlacement_some {pp : List Char} {board : List (List Cell)}
    (h : parsePiecePlacement pp = some board) :
    board.length = 8 ∧ ∀ b ∈ board, RankOk b := by
  unfold parsePiecePlacement at h
  by_cases h8 : (pp.splitOn '/').length = 8
  · rw [if_neg (by simpa using h8)] at h
    have := ranksLoopAux_invariant (pp.splitOn '/') [] board h (by simp)
    exact ⟨by simpa [h8] using this.1, this.2⟩
  · rw [if_pos (by simpa using h8)] at h
    exact absurd h (by simp)

/-- When the input splits into exactly six fields, `parseFen` runs the body. -/
theorem parseFen_of_fields {s pp ac ca ep hm fm : List Char}
    (h : trimAndSplit s = [pp, ac, ca, ep, hm, fm]) :
    parseFen s = parseFenWith s pp ac ca ep hm fm := by
  simp [parseFen, h]

/-! ## C1: every successful parse exposes a full, valid 8x8 board -/

/-- C1: For every input string on which `parseFen` succeeds, the returned
board has exactly 8 ranks, each with exactly 8 cells, and every cell is
either empty or one of the 12 piece tokens; no partial or invalid board is
ever exposed to the caller (a failure returns `none`, carrying no board). -/
theorem c1_board_always_8x8 (s : List Char) (r : ParseResult)
    (h : parseFen s = some r) :
    r.board.length = 8 ∧ ∀ rank ∈ r.board, rank.length = 8 ∧
      ∀ c ∈ rank, c = none ∨ ∃ p, isFenPiece p = true ∧ c = some p := by
  unfold parseFen at h
  split at h
  case h_2 => exact absurd h (by simp)
  case h_1 s pp ac ca ep hm fm heq =>
    unfold parseFenWith at h
    rcases hpp : parsePiecePlacement pp with _ | board
    · rw [hpp] at h; exact absurd h (by simp)
    · rw [hpp] at h
      change (if ac ≠ ['w'] ∧ ac ≠ ['b'] then none else some _) = some r at h
      by_cases hac : ac ≠ ['w'] ∧ ac ≠ ['b']
      · rw [if_pos hac] at h; exact absurd h (by simp)
      · rw [if_neg hac] at h
        have hb : r.board = board := by
          have := (Option.some.injEq _ _).mp h
          rw [← this]
        rw [hb]
        have hinv := parsePiecePlacement_some hpp
        exact ⟨hinv.1, fun rank hr => hinv.2 rank hr⟩

theorem c1_board_always_8x8_witness :
    parseFen fenEmptyBoard = some emptyBoardResult ∧
    (emptyBoardResult.board.length = 8 ∧ ∀ rank ∈ emptyBoardResult.board,
      rank.length = 8 ∧ ∀ c ∈ rank, c = none ∨ ∃ p, isFenPiece p = true ∧ c = some p) :=
  ⟨by decide, c1_board_always_8x8 fenEmptyBoard emptyBoardResult (by decide)⟩

/-! ## C2: failure is exactly field-count, piece-placement or color rejection -/

theorem parseFenWith_eq_none_iff (s pp ac ca ep hm fm : List Char) :
    parseFenWith s pp ac ca ep hm fm = none ↔
      (parsePiecePlacement pp = none ∨ (ac ≠ ['w'] ∧ ac ≠ ['b'])) := by
  rcases hpp : parsePiecePlacement pp with _ | board <;>
    simp only [parseFenWith, hpp]
  · simp
  · by_cases hac : ac ≠ ['w'] ∧ ac ≠ ['b'] <;> simp [hac]

/-- C2: `parseFen` fails if and only if the trimmed whitespace split does not
have exactly 6 fields, or the piece-placement field is rejected, or the
active-color field is rejected; in particular every input whose split has a
field count other than 6 fails. -/
theorem c2_failure_characterization (s : List Char) :
    parseFen s = none ↔
      ((trimAndSplit s).length ≠ 6 ∨
        ∃ pp ac ca ep hm fm, trimAndSplit s = [pp, ac, ca, ep, hm, fm] ∧
          (parsePiecePlacement pp = none ∨ (ac ≠ ['w'] ∧ ac ≠ ['b']))) := by
  rcases hl : trimAndSplit s with _ | ⟨pp, _ | ⟨ac, _ | ⟨ca, _ | ⟨ep, _ | ⟨hm, _ | ⟨fm, _ | ⟨g, rest⟩⟩⟩⟩⟩⟩⟩ <;>
    simp [parseFen, hl, parseFenWith_eq_none_iff]
  constructor
  · intro h
    exact ⟨pp, ac, ⟨rfl, rfl⟩, h⟩
  · rintro ⟨pp', ac', ⟨rfl, rfl⟩, h⟩
    exact h

/-! ## C3: per-character behaviour of the rank scanner -/

theorem isFenPiece_not_digit {c : Char} (h : isFenPiece c = true) :
    isFenDigit c = false := by
  simp only [isFenPiece, Bool.or_eq_true, decide_eq_true_eq] at h
  rcases h with ((((((((((h | h) | h) | h) | h) | h) | h) | h) | h) | h) | h) | h <;>
    subst h <;> decide

theorem scanRankLoop_none_of_bad (l : List Char) : ∀ acc fc,
    (∃ c ∈ l, isFenDigit c = false ∧ isFenPiece c = false) →
    scanRankLoop l acc fc = none := by
  induction l with
  | nil =>
    intro acc fc h
    obtain ⟨c, hc, _⟩ := h
    exact absurd hc (List.not_mem_nil c)
  | cons c rest ih =>
    intro acc fc h
    obtain ⟨x, hx, hxd, hxp⟩ := h
    rcases List.mem_cons.mp hx with hx | hx
    · subst hx
      simp [scanRankLoop, hxd, hxp]
    · by_cases hd : isFenDigit c = true
      · simp only [scanRankLoop, hd, if_true]
        exact ih _ _ ⟨x, hx, hxd, hxp⟩
      · by_cases hp : isFenPiece c = true
        · simp only [scanRankLoop, hd, hp, if_false, if_true]
          exact ih _ _ ⟨x, hx, hxd, hxp⟩
        · simp [scanRankLoop, hd, hp]

/-- C3: Within a rank, a digit 1–8 expands to exactly that many consecutive
empty cells and increments the file-count by the digit's value; a legal piece
letter appends exactly one piece cell and increments the file-count by 1; and
any other character — including the digits 0 and 9 — makes the whole parse
fail with no partial result. -/
theorem c3_char_classification :
    (∀ c rest acc fc, isFenDigit c = true →
      scanRankLoop (c :: rest) acc fc =
        scanRankLoop rest (acc ++ List.replicate (fenDigitVal c) none) (fc + fenDigitVal c)) ∧
    (∀ c rest acc fc, isFenPiece c = true →
      scanRankLoop (c :: rest) acc fc = scanRankLoop rest (acc ++ [some c]) (fc + 1)) ∧
    (∀ c rest acc fc, isFenDigit c = false → isFenPiece c = false →
      scanRankLoop (c :: rest) acc fc = none) ∧
    (∀ s pp ac ca ep hm fm, trimAndSplit s = [pp, ac, ca, ep, hm, fm] →
      (∃ r ∈ pp.splitOn '/', ∃ c ∈ r, isFenDigit c = false ∧ isFenPiece c = false) →
      parseFen s = none) := by
  refine ⟨?_, ?_, ?_, ?_⟩
  · intro c rest acc fc h
    simp [scanRankLoop, h]
  · intro c rest acc fc h
    simp [scanRankLoop, isFenPiece_not_digit h, h]
  · intro c rest acc fc h1 h2
    simp [scanRankLoop, h1, h2]
  · intro s pp ac ca ep hm fm hf hbad
    obtain ⟨r, hr, c, hc, hcd, hcp⟩ := hbad
    have hrank : parseRank r = none := by
      unfold parseRank
      rw [scanRankLoop_none_of_bad r [] 0 ⟨c, hc, hcd, hcp⟩]
    have hpp : parsePiecePlacement pp = none := by
      unfold parsePiecePlacement
      by_cases h8 : (pp.splitOn '/').length = 8
      · rw [if_neg (by simpa using h8)]
        exact ranksLoopAux_none_of_bad _ _ _ hr hrank
      · rw [if_pos (by simpa using h8)]
    rw [parseFen_of_fields hf, parseFenWith_eq_none_iff]
    exact Or.inl hpp

theorem c3_char_classification_witness :
    scanRankLoop ['3', 'P'] [] 0 = scanRankLoop ['P'] [none, none, none] 3 ∧
    scanRankLoop ['P'] [none, none, none] 3 = scanRankLoop [] [none, none, none, some 'P'] 4 ∧
    scanRankLoop ['9'] [] 0 = none ∧
    scanRankLoop ['0'] [] 0 = none ∧
    parseFen fenBadDigit = none :=
  ⟨c3_char_classification.1 '3' ['P'] [] 0 (by decide),
   c3_char_classification.2.1 'P' [] [none, none, none] 3 (by decide),
   c3_char_classification.2.2.1 '9' [] [] 0 (by decide) (by decide),
   c3_char_classification.2.2.1 '0' [] [] 0 (by decide) (by decide),
   c3_char_classification.2.2.2 fenBadDigit
     "rnbqkbnr/pppppppp/9/8/8/8/PPPPPPPP/RNBQKBNR".toList
     ['w'] ['K', 'Q', 'k', 'q'] ['-'] ['0'] ['1'] (by decide) (by decide)⟩

/-! ## C4: wrong rank count or wrong per-rank square count fails -/

/-- C4: the parse of the piece-placement field fails whenever splitting on
`/` yields a number of ranks other than 8, and whenever some rank's
accumulated square count is not exactly 8; on a 6-field input a rejected
piece-placement field makes the whole parse fail. -/
theorem c4_rank_and_square_count :
    (∀ pp, (pp.splitOn '/').length ≠ 8 → parsePiecePlacement pp = none) ∧
    (∀ pp r out n, r ∈ pp.splitOn '/' → scanRankLoop r [] 0 = some (out, n) →
      n ≠ 8 → parsePiecePlacement pp = none) ∧
    (∀ s pp ac ca ep hm fm, trimAndSplit s = [pp, ac, ca, ep, hm, fm] →
      parsePiecePlacement pp = none → parseFen s = none) := by
  refine ⟨?_, ?_, ?_⟩
  · intro pp h
    unfold parsePiecePlacement
    rw [if_pos h]
  · intro pp r out n hr hscan hn
    have hrank : parseRank r = none := by
      unfold parseRank
      rw [hscan]
      change (if n = 8 then some out else none) = none
      rw [if_neg hn]
    unfold parsePiecePlacement
    by_cases h8 : (pp.splitOn '/').length = 8
    · rw [if_neg (by simpa using h8)]
      exact ranksLoopAux_none_of_bad _ _ _ hr hrank
    · rw [if_pos (by simpa using h8)]
  · intro s pp ac ca ep hm fm hf hpp
    rw [parseFen_of_fields hf, parseFenWith_eq_none_iff]
    exact Or.inl hpp

theorem c4_rank_and_square_count_witness :
    parsePiecePlacement "8/8/8/8/8/8/8".toList = none ∧
    parsePiecePlacement "8/8/8/8/8/8/8/8/8".toList = none ∧
    parsePiecePlacement "7/8/8/8/8/8/8/8".toList = none ∧
    parsePiecePlacement "p7p/8/8/8/8/8/8/8".toList = none ∧
    parseFen "8/8/8/8/8/8/8 w - - 0 1".toList = none :=
  ⟨c4_rank_and_square_count.1 "8/8/8/8/8/8/8".toList (by decide),
   c4_rank_and_square_count.1 "8/8/8/8/8/8/8/8/8".toList (by decide),
   c4_rank_and_square_count.2.1 "7/8/8/8/8/8/8/8".toList ['7']
     (List.replicate 7 none) 7 (by decide) (by decide) (by decide),
   c4_rank_and_square_count.2.1 "p7p/8/8/8/8/8/8/8".toList ['p', '7', 'p']
     (some 'p' :: List.replicate 7 none ++ [some 'p']) 9
     (by decide) (by decide) (by decide),
   c4_rank_and_square_count.2.2 "8/8/8/8/8/8/8 w - - 0 1".toList
     "8/8/8/8/8/8/8".toList ['w'] ['-'] ['-'] ['0'] ['1']
     (by decide) (by decide)⟩

/-! ## C5: active-color gate -/

/-- When the piece placement parses and the active color is legal, the body
succeeds with the assembled record. -/
theorem parseFenWith_some (s pp ac ca ep hm fm : List Char)
    (board : List (List Cell))
    (hpp : parsePiecePlacement pp = some board)
    (hac : ac = ['w'] ∨ ac = ['b']) :
    parseFenWith s pp ac ca ep hm fm = some
      { isValid := true
        piecePlacement := pp
        board := board
        activeColor := ac
        castlingAvailability := ca
        enPassantTarget := ep
        halfmoveClock := jsParseInt hm
        fullmoveNumber := jsParseInt fm
        fen := s } := by
  unfold parseFenWith
  rw [hpp]
  change (if ac ≠ ['w'] ∧ ac ≠ ['b'] then none else some _) = _
  rw [if_neg (by tauto : ¬(ac ≠ ['w'] ∧ ac ≠ ['b']))]

/-- C5: for every otherwise-valid 6-field input, `parseFen` succeeds if and
only if the active-color field is exactly `"w"` or exactly `"b"`, and in a
success the result's `activeColor` is that field. -/
theorem c5_active_color (s pp ac ca ep hm fm : List Char)
    (board : List (List Cell))
    (hf : trimAndSplit s = [pp, ac, ca, ep, hm, fm])
    (hpp : parsePiecePlacement pp = some board) :
    ((∃ r, parseFen s = some r) ↔ (ac = ['w'] ∨ ac = ['b'])) ∧
    (∀ r, parseFen s = some r → r.activeColor = ac) := by
  constructor
  · constructor
    · rintro ⟨r, hr⟩
      by_contra hac
      push_neg at hac
      rw [parseFen_of_fields hf] at hr
      unfold parseFenWith at hr
      rw [hpp] at hr
      change (if ac ≠ ['w'] ∧ ac ≠ ['b'] then none else some _) = some r at hr
      rw [if_pos hac] at hr
      exact absurd hr (by simp)
    · intro hac
      exact ⟨_, by rw [parseFen_of_fields hf]
                   exact parseFenWith_some s pp ac ca ep hm fm board hpp hac⟩
  · intro r hr
    rw [parseFen_of_fields hf] at hr
    unfold parseFenWith at hr
    rw [hpp] at hr
    change (if ac ≠ ['w'] ∧ ac ≠ ['b'] then none else some _) = some r at hr
    by_cases hac : ac ≠ ['w'] ∧ ac ≠ ['b']
    · rw [if_pos hac] at hr
      exact absurd hr (by simp)
    · rw [if_neg hac] at hr
      have hrr := (Option.some.injEq _ _).mp hr
      rw [← hrr]

theorem c5_active_color_witness :
    ((∃ r, parseFen fenEmptyBoard = some r) ↔ (['w'] = ['w'] ∨ ['w'] = ['b'])) ∧
    (∀ r, parseFen fenEmptyBoard = some r → r.activeColor = ['w']) :=
  c5_active_color fenEmptyBoard "8/8/8/8/8/8/8/8".toList ['w'] ['-'] ['-'] ['0'] ['1']
    (List.replicate 8 (List.replicate 8 none)) (by decide) (by decide)

/-! ## C6 and C7: the permissive numeric conversion of the clock fields -/

theorem char_digit_toNat {c : Char} (h : c.isDigit = true) :
    (48 : Nat) ≤ c.toNat ∧ c.toNat ≤ 57 := by
  simp only [Char.isDigit, Bool.and_eq_true, decide_eq_true_eq] at h
  obtain ⟨h1, h2⟩ := h
  exact ⟨UInt32.le_toNat_of_le (by decide) h1, UInt32.toNat_le_of_le (by decide) h2⟩

/-- A decimal digit is not whitespace and is not a sign character. -/
theorem isDigit_facts {c : Char} (h : c.isDigit = true) :
    isWs c = false ∧ c ≠ '-' ∧ c ≠ '+' := by
  obtain ⟨h1, h2⟩ := char_digit_toNat h
  refine ⟨?_, ?_, ?_⟩
  · cases hws : isWs c
    · rfl
    · exfalso
      simp only [isWs, Bool.or_eq_true, Bool.and_eq_true, decide_eq_true_eq] at hws
      rcases hws with (((((((((((((hw | hw) | hw) | hw) | hw) | hw) | hw) | hw) | ⟨hr1, hr2⟩) | hw) | hw) | hw) | hw) | hw) | hw
      · subst hw; exact absurd h1 (by decide)
      · subst hw; exact absurd h1 (by decide)
      · subst hw; exact absurd h1 (by decide)
      · subst hw; exact absurd h1 (by decide)
      · subst hw; exact absurd h1 (by decide)
      · subst hw; exact absurd h1 (by decide)
      · subst hw; exact absurd h2 (by decide)
      · subst hw; exact absurd h2 (by decide)
      · have h8192 : (8192 : Nat) ≤ c.val.toNat :=
          @UInt32.le_toNat_of_le c.val 8192 (by decide) hr1
        have h2v : c.val.toNat ≤ 57 := h2
        omega
      · subst hw; exact absurd h2 (by decide)
      · subst hw; exact absurd h2 (by decide)
      · subst hw; exact absurd h2 (by decide)
      · subst hw; exact absurd h2 (by decide)
      · subst hw; exact absurd h2 (by decide)
      · subst hw; exact absurd h2 (by decide)
  · intro he; subst he; exact absurd h1 (by decide)
  · intro he; subst he; exact absurd h1 (by decide)

theorem takeWhile_eq_self_of_all {p : Char → Bool} :
    ∀ l : List Char, (∀ c ∈ l, p c = true) → l.takeWhile p = l := by
  intro l
  induction l with
  | nil => intro _; rfl
  | cons c rest ih =>
    intro h
    have hc := h c (List.mem_cons_self c rest)
    simp only [List.takeWhile_cons, hc, if_true]
    rw [ih (fun x hx => h x (List.mem_cons_of_mem c hx))]

/-- On a nonempty all-digit string, the permissive conversion yields the
(non-negative) decimal value. -/
theorem jsParseInt_all_digits {l : List Char} (hne : l ≠ [])
    (hd : ∀ c ∈ l, c.isDigit = true) :
    jsParseInt l = some (digitsToNat l : Int) := by
  rcases l with _ | ⟨c, rest⟩
  · exact absurd rfl hne
  · have hc := hd c (List.mem_cons_self c rest)
    obtain ⟨hws, hminus, hplus⟩ := isDigit_facts hc
    have hdrop : (c :: rest).dropWhile isWs = c :: rest := by
      rw [List.dropWhile_cons, hws]
      simp
    unfold jsParseInt
    rw [hdrop]
    split
    · next rest' heq =>
      injection heq with hch _
      exact absurd hch hminus
    · next rest' heq =>
      injection heq with hch _
      exact absurd hch hplus
    · have htake : (c :: rest).takeWhile Char.isDigit = c :: rest :=
        takeWhile_eq_self_of_all _ hd
      unfold leadingDigitsVal
      rw [htake]
      simp

/-- C6 counterexample: the claim "halfmoveClock and fullmoveNumber are
non-negative integers in every successful parse" is false: on an input whose
halfmove field is `"-5"` the parse succeeds and `halfmoveClock` is `-5`,
which is negative. -/
theorem c6_counterexample_negative_clock :
    (parseFen fenNegClock).isSome = true ∧
    Option.bind (parseFen fenNegClock) ParseResult.halfmoveClock = some (-5) ∧
    ¬ (0 : Int) ≤ (-5 : Int) := by decide

/-- C6 (amended): in every successful parse, `halfmoveClock` and
`fullmoveNumber` are the permissive base-10 `parseInt` conversions of their
fields; they are non-negative integers whenever those fields are nonempty
all-digit strings, but in general they may be negative (leading `-`) or the
`NaN` sentinel. -/
theorem c6_amended_clock_conversion (s pp ac ca ep hm fm : List Char)
    (r : ParseResult)
    (hf : trimAndSplit s = [pp, ac, ca, ep, hm, fm])
    (hr : parseFen s = some r) :
    r.halfmoveClock = jsParseInt hm ∧ r.fullmoveNumber = jsParseInt fm ∧
    (hm ≠ [] → (∀ c ∈ hm, c.isDigit = true) →
      ∃ a : Nat, r.halfmoveClock = some (a : Int) ∧ 0 ≤ ((a : Int))) ∧
    (fm ≠ [] → (∀ c ∈ fm, c.isDigit = true) →
      ∃ b : Nat, r.fullmoveNumber = some (b : Int) ∧ 0 ≤ ((b : Int))) := by
  rw [parseFen_of_fields hf] at hr
  unfold parseFenWith at hr
  rcases hpp : parsePiecePlacement pp with _ | board
  · rw [hpp] at hr
    exact absurd hr (by simp)
  · rw [hpp] at hr
    change (if ac ≠ ['w'] ∧ ac ≠ ['b'] then none else some _) = some r at hr
    by_cases hac : ac ≠ ['w'] ∧ ac ≠ ['b']
    · rw [if_pos hac] at hr
      exact absurd hr (by simp)
    · rw [if_neg hac] at hr
      have hrr := (Option.some.injEq _ _).mp hr
      subst hrr
      refine ⟨rfl, rfl, ?_, ?_⟩
      · intro h1 h2
        exact ⟨digitsToNat hm, by
          change jsParseInt hm = _
          rw [jsParseInt_all_digits h1 h2], Int.natCast_nonneg _⟩
      · intro h1 h2
        exact ⟨digitsToNat fm, by
          change jsParseInt fm = _
          rw [jsParseInt_all_digits h1 h2], Int.natCast_nonneg _⟩

theorem c6_amended_clock_conversion_witness :
    emptyBoardResult.halfmoveClock = jsParseInt ['0'] ∧
    emptyBoardResult.fullmoveNumber = jsParseInt ['1'] ∧
    (['0'] ≠ ([] : List Char) → (∀ c ∈ ['0'], Char.isDigit c = true) →
      ∃ a : Nat, emptyBoardResult.halfmoveClock = some (a : Int) ∧ 0 ≤ ((a : Int))) ∧
    (['1'] ≠ ([] : List Char) → (∀ c ∈ ['1'], Char.isDigit c = true) →
      ∃ b : Nat, emptyBoardResult.fullmoveNumber = some (b : Int) ∧ 0 ≤ ((b : Int))) :=
  c6_amended_clock_conversion fenEmptyBoard "8/8/8/8/8/8/8/8".toList
    ['w'] ['-'] ['-'] ['0'] ['1'] emptyBoardResult (by decide) (by decide)

/-- C7: a non-numeric halfmove-clock or fullmove-number field never causes
the parse to fail: when the other fields are valid the parse succeeds, the
clock fields are the permissive conversions of their text, and a field whose
conversion is `NaN` (modelled `none`) yields the sentinel in the result. -/
theorem c7_non_numeric_clocks_accepted (s pp ac ca ep hm fm : List Char)
    (board : List (List Cell))
    (hf : trimAndSplit s = [pp, ac, ca, ep, hm, fm])
    (hpp : parsePiecePlacement pp = some board)
    (hac : ac = ['w'] ∨ ac = ['b']) :
    ∃ r, parseFen s = some r ∧
      r.halfmoveClock = jsParseInt hm ∧ r.fullmoveNumber = jsParseInt fm ∧
      (jsParseInt hm = none → r.halfmoveClock = none) ∧
      (jsParseInt fm = none → r.fullmoveNumber = none) := by
  refine ⟨{ isValid := true, piecePlacement := pp, board := board,
            activeColor := ac, castlingAvailability := ca, enPassantTarget := ep,
            halfmoveClock := jsParseInt hm, fullmoveNumber := jsParseInt fm,
            fen := s },
    ?_, rfl, rfl, fun hh => hh, fun hh => hh⟩
  rw [parseFen_of_fields hf]
  exact parseFenWith_some s pp ac ca ep hm fm board hpp hac

theorem c7_non_numeric_clocks_accepted_witness :
    ∃ r, parseFen fenNaNClock = some r ∧
      r.halfmoveClock = jsParseInt ['x'] ∧ r.fullmoveNumber = jsParseInt ['y'] ∧
      (jsParseInt ['x'] = none → r.halfmoveClock = none) ∧
      (jsParseInt ['y'] = none → r.fullmoveNumber = none) :=
  c7_non_numeric_clocks_accepted fenNaNClock "8/8/8/8/8/8/8/8".toList
    ['w'] ['-'] ['-'] ['x'] ['y'] (List.replicate 8 (List.replicate 8 none))
    (by decide) (by decide) (Or.inl rfl)

example : jsParseInt ['x'] = none := by decide

example : jsParseInt ['-', '5'] = some (-5) := by decide

/-! ## C8: round-trip through single-space re-joining -/

theorem splitRunsAux_nil (cur : List Char) :
    splitRunsAux [] cur = if cur = [] then [] else [cur.reverse] := rfl

theorem splitRunsAux_cons (a : Char) (l cur : List Char) :
    splitRunsAux (a :: l) cur =
      if isWs a then
        (if cur = [] then splitRunsAux l [] else cur.reverse :: splitRunsAux l [])
      else splitRunsAux l (a :: cur) := rfl

theorem splitRunsAux_words : ∀ (l cur : List Char), (∀ c ∈ cur, isWs c = false) →
    ∀ w ∈ splitRunsAux l cur, w ≠ [] ∧ ∀ c ∈ w, isWs c = false := by
  intro l
  induction l with
  | nil =>
    intro cur hcur w hw
    unfold splitRunsAux at hw
    by_cases hc : cur = []
    · rw [if_pos hc] at hw
      exact absurd hw (List.not_mem_nil w)
    · rw [if_neg hc] at hw
      have hwc : w = cur.reverse := List.mem_singleton.mp hw
      subst hwc
      exact ⟨by simpa using hc, fun c hcm => hcur c (List.mem_reverse.mp hcm)⟩
  | cons a rest ih =>
    intro cur hcur w hw
    unfold splitRunsAux at hw
    by_cases ha : isWs a = true
    · rw [if_pos ha] at hw
      by_cases hc : cur = []
      · rw [if_pos hc] at hw
        exact ih [] (by simp) w hw
      · rw [if_neg hc] at hw
        rcases List.mem_cons.mp hw with hw | hw
        · subst hw
          exact ⟨by simpa using hc, fun c hcm => hcur c (List.mem_reverse.mp hcm)⟩
        · exact ih [] (by simp) w hw
    · rw [if_neg ha] at hw
      refine ih (a :: cur) ?_ w hw
      intro c hcm
      rcases List.mem_cons.mp hcm with hcm | hcm
      · subst hcm
        simpa using ha
      · exact hcur c hcm

theorem jsTrim_ne_nil_of_six {s pp ac ca ep hm fm : List Char}
    (hf : trimAndSplit s = [pp, ac, ca, ep, hm, fm]) : jsTrim s ≠ [] := by
  intro h
  unfold trimAndSplit at hf
  rw [if_pos h] at hf
  simp at hf

theorem trimAndSplit_words (s : List Char) (h1 : jsTrim s ≠ []) :
    ∀ w ∈ trimAndSplit s, w ≠ [] ∧ ∀ c ∈ w, isWs c = false := by
  unfold trimAndSplit
  rw [if_neg h1]
  exact splitRunsAux_words _ [] (by simp)

theorem splitRunsAux_skip_word : ∀ (w rest cur : List Char),
    (∀ c ∈ w, isWs c = false) →
    splitRunsAux (w ++ rest) cur = splitRunsAux rest (w.reverse ++ cur) := by
  intro w
  induction w with
  | nil => intro rest cur _; simp
  | cons a w' ih =>
    intro rest cur hw
    have ha : isWs a = false := hw a (List.mem_cons_self a w')
    show splitRunsAux (a :: (w' ++ rest)) cur = _
    rw [splitRunsAux_cons, ha]
    simp only [Bool.false_eq_true, if_false]
    rw [ih rest (a :: cur) (fun c hc => hw c (List.mem_cons_of_mem a hc))]
    simp

theorem splitRunsAux_joinFields : ∀ ws : List (List Char), ws ≠ [] →
    (∀ w ∈ ws, w ≠ [] ∧ ∀ c ∈ w, isWs c = false) →
    splitRunsAux (joinFields ws) [] = ws := by
  intro ws
  induction ws with
  | nil => intro h _; exact absurd rfl h
  | cons w rest ih =>
    intro _ hall
    obtain ⟨hwne, hwchars⟩ := hall w (List.mem_cons_self w rest)
    rcases rest with _ | ⟨w2, rest'⟩
    · show splitRunsAux w [] = [w]
      have hpre := splitRunsAux_skip_word w [] [] hwchars
      rw [List.append_nil] at hpre
      rw [hpre]
      simp [splitRunsAux, hwne]
    · show splitRunsAux (w ++ ' ' :: joinFields (w2 :: rest')) [] = w :: w2 :: rest'
      rw [splitRunsAux_skip_word w _ [] hwchars]
      have hsp : isWs ' ' = true := by decide
      have hcur : w.reverse ++ [] ≠ [] := by simpa using hwne
      rw [splitRunsAux_cons, hsp, if_pos rfl, if_neg hcur]
      rw [ih (by simp) (fun x hx => hall x (List.mem_cons_of_mem w hx))]
      simp

theorem joinFields_ends : ∀ ws : List (List Char), ws ≠ [] →
    (∀ w ∈ ws, w ≠ [] ∧ ∀ c ∈ w, isWs c = false) →
    (∃ c t, joinFields ws = c :: t ∧ isWs c = false) ∧
    (∃ t c, joinFields ws = t ++ [c] ∧ isWs c = false) := by
  intro ws
  induction ws with
  | nil => intro h _; exact absurd rfl h
  | cons w rest ih =>
    intro _ hall
    obtain ⟨hwne, hwchars⟩ := hall w (List.mem_cons_self w rest)
    rcases rest with _ | ⟨w2, rest'⟩
    · constructor
      · rcases w with _ | ⟨c, t⟩
        · exact absurd rfl hwne
        · exact ⟨c, t, rfl, hwchars c (List.mem_cons_self c t)⟩
      · rcases List.eq_nil_or_concat w with h | ⟨t, c, h⟩
        · exact absurd h hwne
        · subst h
          refine ⟨t, c, ?_, hwchars c (by simp)⟩
          show t.concat c = t ++ [c]
          simp
    · have ihr := ih (by simp) (fun x hx => hall x (List.mem_cons_of_mem w hx))
      constructor
      · rcases w with _ | ⟨c, t⟩
        · exact absurd rfl hwne
        · exact ⟨c, t ++ ' ' :: joinFields (w2 :: rest'), rfl,
            hwchars c (List.mem_cons_self c t)⟩
      · obtain ⟨t, c, hjc, hcw⟩ := ihr.2
        refine ⟨w ++ ' ' :: t, c, ?_, hcw⟩
        show w ++ ' ' :: joinFields (w2 :: rest') = (w ++ ' ' :: t) ++ [c]
        rw [hjc]
        simp

theorem jsTrim_eq_self {s : List Char}
    (h1 : ∃ c t, s = c :: t ∧ isWs c = false)
    (h2 : ∃ t c, s = t ++ [c] ∧ isWs c = false) :
    jsTrim s = s := by
  obtain ⟨c, t, hs1, hc⟩ := h1
  obtain ⟨t', c', hs2, hc'⟩ := h2
  unfold jsTrim
  have hd : s.dropWhile isWs = s := by
    rw [hs1, List.dropWhile_cons]
    simp [hc]
  rw [hd]
  have hrev : s.reverse = c' :: t'.reverse := by
    rw [hs2]
    simp
  rw [hrev, List.dropWhile_cons]
  simp only [hc', Bool.false_eq_true, if_false]
  rw [List.reverse_cons, List.reverse_reverse, ← hs2]

theorem trimAndSplit_joinFields (ws : List (List Char)) (hne : ws ≠ [])
    (hall : ∀ w ∈ ws, w ≠ [] ∧ ∀ c ∈ w, isWs c = false) :
    trimAndSplit (joinFields ws) = ws := by
  have ends := joinFields_ends ws hne hall
  have htrim : jsTrim (joinFields ws) = joinFields ws := jsTrim_eq_self ends.1 ends.2
  show (if jsTrim (joinFields ws) = [] then [[]]
        else splitRunsAux (jsTrim (joinFields ws)) []) = ws
  rw [htrim]
  obtain ⟨c, t, hj, _⟩ := ends.1
  rw [if_neg (by rw [hj]; simp)]
  exact splitRunsAux_joinFields ws hne hall

/-- The body's output depends on the full input string only through the
verbatim `fen` field. -/
theorem parseFenWith_fen_only (s s' pp ac ca ep hm fm : List Char)
    (r : ParseResult) (h : parseFenWith s pp ac ca ep hm fm = some r) :
    parseFenWith s' pp ac ca ep hm fm = some { r with fen := s' } := by
  unfold parseFenWith at h ⊢
  rcases hpp : parsePiecePlacement pp with _ | board
  · rw [hpp] at h
    simp at h
  · rw [hpp] at h
    change (if ac ≠ ['w'] ∧ ac ≠ ['b'] then none else some _) = some r at h
    change (if ac ≠ ['w'] ∧ ac ≠ ['b'] then none else some _) = some _
    by_cases hac : ac ≠ ['w'] ∧ ac ≠ ['b']
    · rw [if_pos hac] at h
      exact absurd h (by simp)
    · rw [if_neg hac] at h
      rw [if_neg hac]
      have hrr := (Option.some.injEq _ _).mp h
      subst hrr
      rfl

/-- C8: for every input on which `parseFen` succeeds, re-joining the six
split fields with single spaces produces a string that re-parses
successfully to an equivalent result (equal in every component except the
verbatim `fen` source text, which is the re-joined string itself). -/
theorem c8_round_trip (s pp ac ca ep hm fm : List Char) (r : ParseResult)
    (hf : trimAndSplit s = [pp, ac, ca, ep, hm, fm])
    (hr : parseFen s = some r) :
    ∃ r', parseFen (joinFields [pp, ac, ca, ep, hm, fm]) = some r' ∧
      r'.isValid = r.isValid ∧ r'.piecePlacement = r.piecePlacement ∧
      r'.board = r.board ∧ r'.activeColor = r.activeColor ∧
      r'.castlingAvailability = r.castlingAvailability ∧
      r'.enPassantTarget = r.enPassantTarget ∧
      r'.halfmoveClock = r.halfmoveClock ∧
      r'.fullmoveNumber = r.fullmoveNumber := by
  have htne : jsTrim s ≠ [] := jsTrim_ne_nil_of_six hf
  have hwords := trimAndSplit_words s htne
  rw [hf] at hwords
  have hts : trimAndSplit (joinFields [pp, ac, ca, ep, hm, fm]) =
      [pp, ac, ca, ep, hm, fm] :=
    trimAndSplit_joinFields _ (by simp) hwords
  rw [parseFen_of_fields hf] at hr
  refine ⟨{ r with fen := joinFields [pp, ac, ca, ep, hm, fm] },
    ?_, rfl, rfl, rfl, rfl, rfl, rfl, rfl, rfl⟩
  rw [parseFen_of_fields hts]
  exact parseFenWith_fen_only s _ pp ac ca ep hm fm r hr

theorem c8_round_trip_witness :
    ∃ r', parseFen (joinFields ["8/8/8/8/8/8/8/8".toList, ['w'], ['-'], ['-'], ['0'], ['1']]) = some r' ∧
      r'.isValid = fenSpacedResult.isValid ∧
      r'.piecePlacement = fenSpacedResult.piecePlacement ∧
      r'.board = fenSpacedResult.board ∧
      r'.activeColor = fenSpacedResult.activeColor ∧
      r'.castlingAvailability = fenSpacedResult.castlingAvailability ∧
      r'.enPassantTarget = fenSpacedResult.enPassantTarget ∧
      r'.halfmoveClock = fenSpacedResult.halfmoveClock ∧
      r'.fullmoveNumber = fenSpacedResult.fullmoveNumber :=
  c8_round_trip fenSpaced "8/8/8/8/8/8/8/8".toList ['w'] ['-'] ['-'] ['0'] ['1']
    fenSpacedResult (by decide) (by decide)

/-! ## C9: determinism -/

/-- C9: `parseFen` is deterministic: two invocations on the same string
yield the same result.  In this embedding the parser is a pure function of
the input string — there is no state, time or randomness it could read —
so sameness of inputs yields sameness of outputs. -/
theorem c9_deterministic (s₁ s₂ : List Char) (h : s₁ = s₂) :
    parseFen s₁ = parseFen s₂ := by rw [h]

theorem c9_deterministic_witness : parseFen fenEmptyBoard = parseFen fenEmptyBoard :=
  c9_deterministic fenEmptyBoard fenEmptyBoard rfl

/-! ## C10: no adjacency restriction inside a rank -/

theorem scanRankLoop_all_legal : ∀ (l : List Char) (acc : List Cell) (fc : Nat),
    (∀ c ∈ l, isFenDigit c = true ∨ isFenPiece c = true) →
    ∃ out, scanRankLoop l acc fc = some (out, fc + squareSum l) := by
  intro l
  induction l with
  | nil =>
    intro acc fc _
    exact ⟨acc, by simp [scanRankLoop, squareSum]⟩
  | cons c rest ih =>
    intro acc fc h
    have hc := h c (List.mem_cons_self c rest)
    have hrest := fun x hx => h x (List.mem_cons_of_mem c hx)
    rcases hc with hc | hc
    · obtain ⟨out, hout⟩ :=
        ih (acc ++ List.replicate (fenDigitVal c) none) (fc + fenDigitVal c) hrest
      refine ⟨out, ?_⟩
      simp only [scanRankLoop, hc, if_true]
      have harith : fc + fenDigitVal c + squareSum rest = fc + squareSum (c :: rest) := by
        simp only [squareSum, List.map_cons, List.sum_cons, fenCharCount, hc, if_true]
        omega
      rw [← harith]
      exact hout
    · have hd : isFenDigit c = false := isFenPiece_not_digit hc
      obtain ⟨out, hout⟩ := ih (acc ++ [some c]) (fc + 1) hrest
      refine ⟨out, ?_⟩
      simp only [scanRankLoop, hd, hc, Bool.false_eq_true, if_false, if_true]
      have harith : fc + 1 + squareSum rest = fc + squareSum (c :: rest) := by
        simp only [squareSum, List.map_cons, List.sum_cons, fenCharCount, hd,
          Bool.false_eq_true, if_false]
        omega
      rw [← harith]
      exact hout

/-- C10: the rank parser imposes no adjacency restriction: any string of
legal characters whose expanded square counts sum to 8 is accepted — in
particular the rank `"44"` (two adjacent digits) parses to 8 empty cells,
and a full position using it parses successfully. -/
theorem c10_no_adjacency_restriction :
    (∀ l, (∀ c ∈ l, isFenDigit c = true ∨ isFenPiece c = true) → squareSum l = 8 →
      ∃ out, parseRank l = some out) ∧
    parseRank ['4', '4'] = some (List.replicate 8 none) ∧
    (parseFen "44/8/8/8/8/8/8/8 w - - 0 1".toList).isSome = true := by
  refine ⟨?_, by decide, by decide⟩
  intro l hl hsum
  obtain ⟨out, hout⟩ := scanRankLoop_all_legal l [] 0 hl
  refine ⟨out, ?_⟩
  unfold parseRank
  rw [hout]
  change (if 0 + squareSum l = 8 then some out else none) = some out
  rw [if_pos (by omega)]

theorem c10_no_adjacency_restriction_witness :
    (∃ out, parseRank ['4', '4'] = some out) ∧
    (∃ out, parseRank ['2', 'p', 'p', '2', 'n', 'n'] = some out) :=
  ⟨c10_no_adjacency_restriction.1 ['4', '4'] (by decide) (by decide),
   c10_no_adjacency_restriction.1 ['2', 'p', 'p', '2', 'n', 'n'] (by decide) (by decide)⟩
